import Mathlib

/-!
Verification of the `pegger` matching engine (`pegger.py`).

The engine works on Python strings (modelled as `List Char`) and produces
Python values built from strings and lists (modelled by the nested inductive
`PyVal`).  A result of a successful match is a Python value paired with the
unconsumed remainder of the text; failures are the `NoPatternFound` signal
(`POut.noMatch`), the `UnknownMatcherType` signal and the `IndexError`
exception (`POut.error`).  Since `do_parse` is mutually recursive through
callable rule patterns and the `match_many` while-loop can iterate
unboundedly, the interpreter takes an explicit fuel argument; `none` means
the fuel ran out (and divergence of the Python engine is expressed as
running out of every fuel).
-/

/-- Model of a Python value as produced by the matchers: a string or a
(heterogeneous) list of values.  `[name, text]` pairs, the empty list used
by `match_ignore`, and the accumulated result lists are all `PyVal`s. -/
inductive PyVal where
  | str (s : List Char)
  | list (l : List PyVal)

/-- Python truthiness for the values relevant to the engine: a string or a
list is truthy iff it is nonempty. -/
def truthy : PyVal → Bool
  | .str s => !s.isEmpty
  | .list l => !l.isEmpty

/-- Python indexing `v[i]`.  Indexing a string yields a one-character
string; out of bounds gives `none` (an `IndexError`). -/
def pyIndex : PyVal → Nat → Option PyVal
  | .str s, i => (s.get? i).map (fun c => PyVal.str [c])
  | .list l, i => l.get? i

/-- The `__name__` of a Python lambda. -/
def lambdaName : List Char := "<lambda>".toList

/-- Python's `v == "<lambda>"`: true only for the string `"<lambda>"` (a
list never equals a string in Python). -/
def isLambdaStr : PyVal → Bool
  | .str s => s = lambdaName
  | .list _ => false

/-- The pattern language of `pegger.py`: a closed rendering of the types the
`matchers` dict dispatches on.  `lit` is a plain string pattern, `tup` a
tuple of sub-patterns, `someC` is `Some`, `words` is `Words` (carrying its
`letters`), `ignore` is `Ignore`, `oneOf` is `OneOf`, `many` is `Many`,
`notP` is `Not`, `optional` is `Optional`, `indented` is `Indented`, and
`rule` is a named zero-argument callable returning its body pattern. -/
inductive Pattern where
  | lit (s : List Char)
  | tup (ps : List Pattern)
  | someC (s : List Char)
  | words (letters : List Char)
  | ignore (p : Pattern)
  | oneOf (ps : List Pattern)
  | many (ps : List Pattern)
  | notP (s : List Char)
  | optional (p : Pattern)
  | indented (p : Pattern)
  | rule (name : List Char) (p : Pattern)

/-- The default `Words.letters`: ASCII uppercase, lowercase, space, period,
comma (`string.uppercase + string.lowercase + " .,"`). -/
def defaultLetters : List Char :=
  "ABCDEFGHIJKLMNOPQRSTUVWXYZabcdefghijklmnopqrstuvwxyz .,".toList

/-- The Python exceptions that can escape a matcher besides
`NoPatternFound`. -/
inductive PyErr where
  | indexError
  | unknownMatcher
deriving DecidableEq, Repr

/-- Outcome of a matcher call: success with a payload, the backtrackable
`NoPatternFound` signal, or an escaping exception. -/
inductive POut (α : Type) where
  | ok (a : α)
  | noMatch
  | error (e : PyErr)

/-- `get_pattern_info`: resolve a callable rule pattern one level, adopting
its `__name__` as the label (a `"<lambda>"` name becomes the empty label);
any other pattern keeps the empty label. -/
def getPatternInfo : Pattern → Pattern × List Char
  | .rule n p => (p, if n = lambdaName then [] else n)
  | p => (p, [])

/-- The character-consuming loop of `match_some`: consume leading
characters `c` as long as `pattern.pattern == c` (a comparison of the
stored string against a one-character string). -/
def someLoop (p : List Char) : List Char → List Char × List Char
  | [] => ([], [])
  | c :: rest =>
    if p = [c] then
      let mr := someLoop p rest
      (c :: mr.1, mr.2)
    else ([], c :: rest)

/-- `match_some`: the maximal run accepted by `someLoop`; an empty run is
`NoPatternFound`, otherwise the result is `[name, run]`. -/
def matchSome (text p name : List Char) : POut (PyVal × List Char) :=
  let mr := someLoop p text
  if mr.1.isEmpty then .noMatch
  else .ok (.list [.str name, .str mr.1], mr.2)

/-- The character-consuming loop of `match_words`: consume leading
characters belonging to `letters`. -/
def wordsLoop (letters : List Char) : List Char → List Char × List Char
  | [] => ([], [])
  | c :: rest =>
    if letters.contains c then
      let mr := wordsLoop letters rest
      (c :: mr.1, mr.2)
    else ([], c :: rest)

/-- `match_words`: the maximal run of characters from `letters`; an empty
run is `NoPatternFound`. -/
def matchWords (text letters name : List Char) : POut (PyVal × List Char) :=
  let mr := wordsLoop letters text
  if mr.1.isEmpty then .noMatch
  else .ok (.list [.str name, .str mr.1], mr.2)

/-- `match_text`: succeed iff `text` starts with the literal, consuming
exactly the literal and producing `[name, literal]`. -/
def matchText (text pat name : List Char) : POut (PyVal × List Char) :=
  if pat.isPrefixOf text then .ok (.list [.str name, .str pat], text.drop pat.length)
  else .noMatch

/-- The character-consuming loop of `match_not`: consume characters one at
a time until the text is exhausted or the remaining text starts with the
forbidden string. -/
def notLoop (p : List Char) : List Char → List Char × List Char
  | [] => ([], [])
  | c :: rest =>
    if p.isPrefixOf (c :: rest) then ([], c :: rest)
    else
      let mr := notLoop p rest
      (c :: mr.1, mr.2)

/-- `match_not`: the run accepted by `notLoop`; an empty run is
`NoPatternFound`. -/
def matchNot (text p name : List Char) : POut (PyVal × List Char) :=
  let mr := notLoop p text
  if mr.1.isEmpty then .noMatch
  else .ok (.list [.str name, .str mr.1], mr.2)

/-- The unwrap step of `match_one_of`:
`if (not match) or (match[0] == "<lambda>"): match = match[1]`,
with Python's evaluation order (a falsy match takes `match[1]` without
touching `match[0]`; a missing index is an `IndexError`). -/
def oneOfUnwrap (m : PyVal) : Except PyErr PyVal :=
  if !truthy m then
    match pyIndex m 1 with
    | none => .error .indexError
    | some v => .ok v
  else
    match pyIndex m 0 with
    | none => .error .indexError
    | some v0 =>
      if isLambdaStr v0 then
        match pyIndex m 1 with
        | none => .error .indexError
        | some v => .ok v
      else .ok m

/-- The unwrap step of `match_many`:
`if (not match[0]) or (match[0] == "<lambda>"): match = match[1]`. -/
def manyUnwrap (m : PyVal) : Except PyErr PyVal :=
  match pyIndex m 0 with
  | none => .error .indexError
  | some v0 =>
    if !truthy v0 || isLambdaStr v0 then
      match pyIndex m 1 with
      | none => .error .indexError
      | some v => .ok v
    else .ok m

/-- The result assembly at the end of `match_tuple`:
collapse a singleton accumulator to its element, unwrap once when
`result[0]` is falsy (both indexings can raise `IndexError`), then wrap as
`[name, result]`. -/
def tupleAssemble (acc : List PyVal) (name : List Char) : Except PyErr PyVal :=
  let r := match acc with
    | [x] => x
    | _ => PyVal.list acc
  match pyIndex r 0 with
  | none => .error .indexError
  | some v0 =>
    if !truthy v0 then
      match pyIndex r 1 with
      | none => .error .indexError
      | some v1 => .ok (.list [.str name, v1])
    else .ok (.list [.str name, r])

/-- The result assembly at the end of `match_many`: an empty accumulator is
`NoPatternFound`; a singleton collapses to its element; a truthy name wraps
the result as `[name, result]`, otherwise the bare value is returned. -/
def manyFinish (acc : List PyVal) (rest : List Char) (name : List Char) :
    POut (PyVal × List Char) :=
  if acc.isEmpty then .noMatch
  else
    let r := match acc with
      | [x] => x
      | _ => PyVal.list acc
    if name.isEmpty then .ok (r, rest)
    else .ok (.list [.str name, r], rest)

/-- Python's `text.split("\n")` on a list of characters. -/
def splitNl : List Char → List (List Char)
  | [] => [[]]
  | c :: rest =>
    match splitNl rest with
    | [] => [[c]]
    | l :: ls => if c = '\n' then [] :: l :: ls else (c :: l) :: ls

/-- The line-collecting loop of `match_indented`: take the maximal leading
run of lines starting with `indent`, each stripped of `indent`; the
remaining lines are returned unchanged. -/
def collectIndented (indent : List Char) : List (List Char) →
    List (List Char) × List (List Char)
  | [] => ([], [])
  | l :: ls =>
    if indent.isPrefixOf l then
      let ab := collectIndented indent ls
      (l.drop indent.length :: ab.1, ab.2)
    else ([], l :: ls)

mutual

/-- `do_parse`: resolve the pattern via `get_pattern_info` and dispatch on
its variant.  The fuel decreases on every nested call; `none` means the
fuel was exhausted. -/
def doParse : Nat → List Char → Pattern → Option (POut (PyVal × List Char))
  | 0, _, _ => none
  | Nat.succ f, text, pat0 =>
    let pi := getPatternInfo pat0
    match pi.1 with
    | .rule _ _ => some (.error .unknownMatcher)
    | .lit s => some (matchText text s pi.2)
    | .someC s => some (matchSome text s pi.2)
    | .words ls => some (matchWords text ls pi.2)
    | .notP s => some (matchNot text s pi.2)
    | .ignore q =>
      match doParse f text q with
      | none => none
      | some (.ok mr) => some (.ok (.list [], mr.2))
      | some .noMatch => some .noMatch
      | some (.error e) => some (.error e)
    | .optional q =>
      match doParse f text q with
      | none => none
      | some (.ok mr) => some (.ok mr)
      | some .noMatch => some (.ok (.list [], text))
      | some (.error e) => some (.error e)
    | .tup ps =>
      match tupleLoop f text ps [] with
      | none => none
      | some .noMatch => some .noMatch
      | some (.error e) => some (.error e)
      | some (.ok accrest) =>
        match tupleAssemble accrest.1 pi.2 with
        | .error e => some (.error e)
        | .ok v => some (.ok (v, accrest.2))
    | .oneOf ps => oneOfLoop f text ps
    | .many ps =>
      match manyLoop f text ps [] with
      | none => none
      | some .noMatch => some .noMatch
      | some (.error e) => some (.error e)
      | some (.ok accrest) => some (manyFinish accrest.1 accrest.2 pi.2)
    | .indented q =>
      match text with
      | [] => some .noMatch
      | c :: t =>
        if c = '\n' then
          let indent := t.takeWhile (fun ch => ch == ' ')
          if indent.isEmpty then some .noMatch
          else
            let pr := collectIndented indent (splitNl t)
            match doParse f ('\n' :: List.intercalate ['\n'] pr.1) q with
            | none => none
            | some .noMatch => some .noMatch
            | some (.error e) => some (.error e)
            | some (.ok mr) =>
              some (.ok (mr.1, mr.2 ++ '\n' :: List.intercalate ['\n'] pr.2))
        else some .noMatch

/-- The loop of `match_tuple`: parse each sub-pattern against the running
remainder, appending truthy results; `NoPatternFound` aborts the tuple. -/
def tupleLoop : Nat → List Char → List Pattern → List PyVal →
    Option (POut (List PyVal × List Char))
  | 0, _, _, _ => none
  | Nat.succ _, rest, [], acc => some (.ok (acc, rest))
  | Nat.succ f, rest, q :: qs, acc =>
    match doParse f rest q with
    | none => none
    | some .noMatch => some .noMatch
    | some (.error e) => some (.error e)
    | some (.ok mr) =>
      tupleLoop f mr.2 qs (if truthy mr.1 then acc ++ [mr.1] else acc)

/-- The loop of `match_one_of`: try each option against the original text;
a success with a truthy result is unwrapped and returned, a success with a
falsy result is passed over, and exhausting the options is
`NoPatternFound`. -/
def oneOfLoop : Nat → List Char → List Pattern →
    Option (POut (PyVal × List Char))
  | 0, _, _ => none
  | Nat.succ _, _, [] => some .noMatch
  | Nat.succ f, text, q :: qs =>
    match doParse f text q with
    | none => none
    | some .noMatch => oneOfLoop f text qs
    | some (.error e) => some (.error e)
    | some (.ok mr) =>
      if truthy mr.1 then
        match oneOfUnwrap mr.1 with
        | .error e => some (.error e)
        | .ok m2 => some (.ok (m2, mr.2))
      else oneOfLoop f text qs

/-- One pass of the `match_many` while-loop body: try every option in list
order against the running remainder; each success updates the remainder,
and each truthy success appends its unwrapped result and records that a
match was made. -/
def manyPass : Nat → List Char → List Pattern → List PyVal → Bool →
    Option (POut (List PyVal × List Char × Bool))
  | 0, _, _, _, _ => none
  | Nat.succ _, rest, [], acc, made => some (.ok (acc, rest, made))
  | Nat.succ f, rest, q :: qs, acc, made =>
    match doParse f rest q with
    | none => none
    | some .noMatch => manyPass f rest qs acc made
    | some (.error e) => some (.error e)
    | some (.ok mr) =>
      if truthy mr.1 then
        match manyUnwrap mr.1 with
        | .error e => some (.error e)
        | .ok m2 => manyPass f mr.2 qs (acc ++ [m2]) true
      else manyPass f mr.2 qs acc made

/-- The `match_many` while-loop: stop when the remainder is empty or when a
pass makes no (truthy) match; otherwise run the next pass. -/
def manyLoop : Nat → List Char → List Pattern → List PyVal →
    Option (POut (List PyVal × List Char))
  | 0, _, _, _ => none
  | Nat.succ f, rest, opts, acc =>
    if rest.isEmpty then some (.ok (acc, rest))
    else
      match manyPass f rest opts acc false with
      | none => none
      | some .noMatch => some .noMatch
      | some (.error e) => some (.error e)
      | some (.ok arm) =>
        if arm.2.2 then manyLoop f arm.2.1 opts arm.1
        else some (.ok (arm.1, arm.2.1))

end

/-- The dispatch of `do_parse` on an already-resolved pattern and label,
written as a plain function of the recursive calls at the next lower fuel;
`doParse (f+1)` agrees with it definitionally (`doParse_succ`). -/
def dispatchStep (f : Nat) (text : List Char) (p : Pattern) (name : List Char) :
    Option (POut (PyVal × List Char)) :=
  match p with
  | .rule _ _ => some (.error .unknownMatcher)
  | .lit s => some (matchText text s name)
  | .someC s => some (matchSome text s name)
  | .words ls => some (matchWords text ls name)
  | .notP s => some (matchNot text s name)
  | .ignore q =>
    match doParse f text q with
    | none => none
    | some (.ok mr) => some (.ok (.list [], mr.2))
    | some .noMatch => some .noMatch
    | some (.error e) => some (.error e)
  | .optional q =>
    match doParse f text q with
    | none => none
    | some (.ok mr) => some (.ok mr)
    | some .noMatch => some (.ok (.list [], text))
    | some (.error e) => some (.error e)
  | .tup ps =>
    match tupleLoop f text ps [] with
    | none => none
    | some .noMatch => some .noMatch
    | some (.error e) => some (.error e)
    | some (.ok accrest) =>
      match tupleAssemble accrest.1 name with
      | .error e => some (.error e)
      | .ok v => some (.ok (v, accrest.2))
  | .oneOf ps => oneOfLoop f text ps
  | .many ps =>
    match manyLoop f text ps [] with
    | none => none
    | some .noMatch => some .noMatch
    | some (.error e) => some (.error e)
    | some (.ok accrest) => some (manyFinish accrest.1 accrest.2 name)
  | .indented q =>
    match text with
    | [] => some .noMatch
    | c :: t =>
      if c = '\n' then
        if (t.takeWhile (fun ch => ch == ' ')).isEmpty then some .noMatch
        else
          match doParse f ('\n' :: List.intercalate ['\n']
              (collectIndented (t.takeWhile (fun ch => ch == ' ')) (splitNl t)).1) q with
          | none => none
          | some .noMatch => some .noMatch
          | some (.error e) => some (.error e)
          | some (.ok mr) =>
            some (.ok (mr.1, mr.2 ++ '\n' :: List.intercalate ['\n']
              (collectIndented (t.takeWhile (fun ch => ch == ' ')) (splitNl t)).2))
      else some .noMatch

/-- Unfolding of `doParse` at positive fuel through `get_pattern_info` and
the dispatch. -/
theorem doParse_succ (f : Nat) (text : List Char) (pat : Pattern) :
    doParse (f + 1) text pat =
      dispatchStep f text (getPatternInfo pat).1 (getPatternInfo pat).2 := by
  cases pat <;> rfl

/-- `parse_string`: run `do_parse` and keep only the match, discarding the
remainder. -/
def parseString (fuel : Nat) (text : List Char) (pat : Pattern) :
    Option (POut PyVal) :=
  match doParse fuel text pat with
  | none => none
  | some (.ok mr) => some (.ok mr.1)
  | some .noMatch => some .noMatch
  | some (.error e) => some (.error e)

theorem fuelMonoAll : ∀ f : Nat,
    (∀ f' text pat o, f ≤ f' → doParse f text pat = some o →
      doParse f' text pat = some o) ∧
    (∀ f' rest ps acc o, f ≤ f' → tupleLoop f rest ps acc = some o →
      tupleLoop f' rest ps acc = some o) ∧
    (∀ f' text ps o, f ≤ f' → oneOfLoop f text ps = some o →
      oneOfLoop f' text ps = some o) ∧
    (∀ f' rest ps acc made o, f ≤ f' → manyPass f rest ps acc made = some o →
      manyPass f' rest ps acc made = some o) ∧
    (∀ f' rest opts acc o, f ≤ f' → manyLoop f rest opts acc = some o →
      manyLoop f' rest opts acc = some o) := by
  intro f
  induction f with
  | zero =>
    refine ⟨fun f' t p o _ h => ?_, fun f' r ps a o _ h => ?_,
        fun f' t ps o _ h => ?_, fun f' r ps a m o _ h => ?_,
        fun f' r ps a o _ h => ?_⟩ <;>
      simp [doParse, tupleLoop, oneOfLoop, manyPass, manyLoop] at h
  | succ f ih =>
    obtain ⟨ih1, ih2, ih3, ih4, ih5⟩ := ih
    refine ⟨?_, ?_, ?_, ?_, ?_⟩
    · -- doParse
      intro f' text pat o hle h
      obtain ⟨f2, rfl⟩ : ∃ k, f' = k + 1 := ⟨f' - 1, by omega⟩
      have hff : f ≤ f2 := by omega
      rw [doParse_succ] at h ⊢
      rcases hp : (getPatternInfo pat).1 with s | ps | s | ls | q | ps | ps | s | q | q | ⟨n, q⟩ <;>
        rw [hp] at h <;> simp only [dispatchStep] at h ⊢
      · exact h
      · -- tup
        rcases hq : tupleLoop f text ps [] with _ | mr
        · rw [hq] at h; simp at h
        · rw [hq] at h; rw [ih2 f2 text ps [] mr hff hq]
          exact h
      · exact h
      · exact h
      · -- ignore
        rcases hq : doParse f text q with _ | mr
        · rw [hq] at h; simp at h
        · rw [hq] at h; rw [ih1 f2 text q mr hff hq]
          exact h
      · -- oneOf
        exact ih3 f2 text ps o hff h
      · -- many
        rcases hq : manyLoop f text ps [] with _ | mr
        · rw [hq] at h; simp at h
        · rw [hq] at h; rw [ih5 f2 text ps [] mr hff hq]
          exact h
      · exact h
      · -- optional
        rcases hq : doParse f text q with _ | mr
        · rw [hq] at h; simp at h
        · rw [hq] at h; rw [ih1 f2 text q mr hff hq]
          exact h
      · -- indented
        rcases text with _ | ⟨c, t⟩
        · exact h
        · dsimp only at h ⊢
          by_cases hc : c = '\n'
          · rw [if_pos hc] at h ⊢
            by_cases hi : (t.takeWhile (fun ch => ch == ' ')).isEmpty
            · rw [if_pos hi] at h ⊢; exact h
            · rw [if_neg hi] at h ⊢
              rcases hq : doParse f ('\n' :: List.intercalate ['\n']
                  (collectIndented (t.takeWhile (fun ch => ch == ' ')) (splitNl t)).1) q with _ | mr
              · rw [hq] at h; simp at h
              · rw [hq] at h; rw [ih1 f2 _ q mr hff hq]
                exact h
          · rw [if_neg hc] at h ⊢; exact h
      · exact h
    · -- tupleLoop
      intro f' rest ps acc o hle h
      obtain ⟨f2, rfl⟩ : ∃ k, f' = k + 1 := ⟨f' - 1, by omega⟩
      have hff : f ≤ f2 := by omega
      rcases ps with _ | ⟨q, qs⟩
      · simpa [tupleLoop] using h
      · simp only [tupleLoop] at h ⊢
        rcases hq : doParse f rest q with _ | mr
        · rw [hq] at h; simp at h
        · rw [hq] at h; rw [ih1 f2 rest q mr hff hq]
          rcases mr with mr | _ | e <;> dsimp only at h ⊢
          · exact ih2 f2 mr.2 qs _ o hff h
          · exact h
          · exact h
    · -- oneOfLoop
      intro f' text ps o hle h
      obtain ⟨f2, rfl⟩ : ∃ k, f' = k + 1 := ⟨f' - 1, by omega⟩
      have hff : f ≤ f2 := by omega
      rcases ps with _ | ⟨q, qs⟩
      · simpa [oneOfLoop] using h
      · simp only [oneOfLoop] at h ⊢
        rcases hq : doParse f text q with _ | mr
        · rw [hq] at h; simp at h
        · rw [hq] at h; rw [ih1 f2 text q mr hff hq]
          rcases mr with mr | _ | e <;> dsimp only at h ⊢
          · by_cases ht : truthy mr.1
            · rw [if_pos ht] at h ⊢; exact h
            · rw [if_neg (by simp [ht])] at h ⊢
              exact ih3 f2 text qs o hff h
          · exact ih3 f2 text qs o hff h
          · exact h
    · -- manyPass
      intro f' rest ps acc made o hle h
      obtain ⟨f2, rfl⟩ : ∃ k, f' = k + 1 := ⟨f' - 1, by omega⟩
      have hff : f ≤ f2 := by omega
      rcases ps with _ | ⟨q, qs⟩
      · simpa [manyPass] using h
      · simp only [manyPass] at h ⊢
        rcases hq : doParse f rest q with _ | mr
        · rw [hq] at h; simp at h
        · rw [hq] at h; rw [ih1 f2 rest q mr hff hq]
          rcases mr with mr | _ | e <;> dsimp only at h ⊢
          · by_cases ht : truthy mr.1
            · rw [if_pos ht] at h ⊢
              rcases hu : manyUnwrap mr.1 with e | m2
              · rw [hu] at h; dsimp only at h ⊢; exact h
              · rw [hu] at h; dsimp only at h ⊢
                exact ih4 f2 mr.2 qs _ true o hff h
            · rw [if_neg (by simp [ht])] at h ⊢
              exact ih4 f2 mr.2 qs acc made o hff h
          · exact ih4 f2 rest qs acc made o hff h
          · exact h
    · -- manyLoop
      intro f' rest opts acc o hle h
      obtain ⟨f2, rfl⟩ : ∃ k, f' = k + 1 := ⟨f' - 1, by omega⟩
      have hff : f ≤ f2 := by omega
      simp only [manyLoop] at h ⊢
      by_cases hr : rest.isEmpty
      · rw [if_pos hr] at h ⊢; exact h
      · rw [if_neg (by simp [hr])] at h ⊢
        rcases hq : manyPass f rest opts acc false with _ | mr
        · rw [hq] at h; simp at h
        · rw [hq] at h; rw [ih4 f2 rest opts acc false mr hff hq]
          rcases mr with mr | _ | e <;> dsimp only at h ⊢
          · by_cases hm : mr.2.2
            · rw [if_pos hm] at h ⊢
              exact ih5 f2 mr.2.1 opts mr.1 o hff h
            · rw [if_neg (by simp [hm])] at h ⊢
              exact h
          · exact h
          · exact h

/-- Fuel monotonicity of the interpreter: a settled outcome is stable under
extra fuel, so the fuel parameter is an artifact of the embedding and not
part of the semantics. -/
theorem doParse_mono {f f' : Nat} (hle : f ≤ f') {text : List Char}
    {pat : Pattern} {o : POut (PyVal × List Char)}
    (h : doParse f text pat = some o) : doParse f' text pat = some o :=
  (fuelMonoAll f).1 f' text pat o hle h

/-- C8: parsing is deterministic: two invocations of the engine (and of the
`parse_string` entry point) on the same text and the same pattern tree that
reach a settled outcome produce the same outcome, independently of the
fuel; in this pure embedding the `Pattern` argument is immutable by
construction, matching the source, which never writes to a pattern. -/
theorem parse_deterministic :
    (∀ (f1 f2 : Nat) (text : List Char) (pat : Pattern)
        (o1 o2 : POut (PyVal × List Char)),
      doParse f1 text pat = some o1 → doParse f2 text pat = some o2 → o1 = o2) ∧
    (∀ (f1 f2 : Nat) (text : List Char) (pat : Pattern) (o1 o2 : POut PyVal),
      parseString f1 text pat = some o1 → parseString f2 text pat = some o2 →
      o1 = o2) := by
  have hdp : ∀ (f1 f2 : Nat) (text : List Char) (pat : Pattern)
      (o1 o2 : POut (PyVal × List Char)),
      doParse f1 text pat = some o1 → doParse f2 text pat = some o2 → o1 = o2 := by
    intro f1 f2 text pat o1 o2 h1 h2
    rcases le_total f1 f2 with hle | hle
    · have h3 := doParse_mono hle h1
      rw [h3] at h2
      exact Option.some_inj.mp h2
    · have h3 := doParse_mono hle h2
      rw [h3] at h1
      exact (Option.some_inj.mp h1).symm
  refine ⟨hdp, ?_⟩
  intro f1 f2 text pat o1 o2 h1 h2
  simp only [parseString] at h1 h2
  rcases hq1 : doParse f1 text pat with _ | mr1 <;> rw [hq1] at h1
  · exact absurd h1 (by simp)
  rcases hq2 : doParse f2 text pat with _ | mr2 <;> rw [hq2] at h2
  · exact absurd h2 (by simp)
  have hmr := hdp f1 f2 text pat mr1 mr2 hq1 hq2
  subst hmr
  rcases mr1 with mr | _ | e <;> dsimp only at h1 h2 <;>
    exact (Option.some_inj.mp h1).symm.trans (Option.some_inj.mp h2)

/-- Witness for C8 at a concrete input: both parses of `"x"` against
`Literal("x")`, at different fuels, give the same result. -/
theorem parse_deterministic_witness :
    (POut.ok (PyVal.list [PyVal.str [], PyVal.str ['x']]) : POut PyVal) =
      POut.ok (PyVal.list [PyVal.str [], PyVal.str ['x']]) :=
  parse_deterministic.2 2 9 ['x'] (.lit ['x'])
    (.ok (.list [.str [], .str ['x']])) (.ok (.list [.str [], .str ['x']])) rfl rfl

/-- C10: a Complement (`Not`) pattern whose forbidden string is empty
raises `NoPatternFound` on every input text: every text starts with the
empty string, so `match_not` consumes zero characters and fails. -/
theorem complement_empty_always_nomatch :
    ∀ (f : Nat) (text : List Char),
      doParse (f + 1) text (.notP []) = some POut.noMatch := by
  intro f text
  rw [doParse_succ]
  simp only [getPatternInfo, dispatchStep]
  cases text <;> simp [matchNot, notLoop, List.isPrefixOf]

/-- C6: `Optional` passes a successful inner result and remainder through
unchanged, converts an inner `NoPatternFound` into a success with the empty
result and the original unconsumed text, and itself never produces
`NoPatternFound`. -/
theorem optional_never_fails :
    ∀ (f : Nat) (text : List Char) (p : Pattern),
      (∀ mr, doParse f text p = some (POut.ok mr) →
        doParse (f + 1) text (.optional p) = some (POut.ok mr)) ∧
      (doParse f text p = some POut.noMatch →
        doParse (f + 1) text (.optional p) = some (POut.ok (.list [], text))) ∧
      doParse (f + 1) text (.optional p) ≠ some POut.noMatch := by
  intro f text p
  rw [doParse_succ]
  simp only [getPatternInfo, dispatchStep]
  refine ⟨fun mr h => by rw [h], fun h => by rw [h], ?_⟩
  rcases hq : doParse f text p with _ | mr
  · simp
  · rcases mr with mr | _ | e <;> simp

/-- Witness for C6: `parse("x", Optional(Literal("y")))` succeeds with the
empty result and the unchanged remainder `"x"`. -/
theorem optional_never_fails_witness :
    doParse 2 "x".toList (.optional (.lit "y".toList)) =
      some (POut.ok (.list [], "x".toList)) :=
  (optional_never_fails 1 "x".toList (.lit "y".toList)).2.1 rfl

/-- C7: `match_not` consumes characters one at a time from the front until
the text is exhausted or the remaining text starts with the forbidden
string; the forbidden string is never consumed (no strict prefix of the
consumed run stops the scan), the consumed run plus the remainder is the
original text, the result is `[name, run]`, and an empty run is
`NoPatternFound`.  The `"STOP"` examples from the specification are
included. -/
theorem complement_scan_correct :
    (∀ (p text name : List Char),
      text = (notLoop p text).1 ++ (notLoop p text).2 ∧
      ((notLoop p text).2 = [] ∨ p.isPrefixOf (notLoop p text).2 = true) ∧
      (∀ i, i < (notLoop p text).1.length →
        p.isPrefixOf (List.drop i text) = false) ∧
      matchNot text p name =
        (if (notLoop p text).1.isEmpty then POut.noMatch
         else POut.ok (.list [.str name, .str (notLoop p text).1],
           (notLoop p text).2))) ∧
    doParse 1 "abcSTOPdef".toList (.notP "STOP".toList) =
      some (POut.ok (.list [.str [], .str "abc".toList], "STOPdef".toList)) ∧
    doParse 1 "STOPxyz".toList (.notP "STOP".toList) = some POut.noMatch := by
  refine ⟨?_, rfl, rfl⟩
  intro p text name
  induction text with
  | nil => exact ⟨rfl, Or.inl rfl, fun i hi => by simp [notLoop] at hi, rfl⟩
  | cons c t ih =>
    by_cases hp : p.isPrefixOf (c :: t) = true
    · refine ⟨?_, ?_, ?_, rfl⟩
      · simp [notLoop, hp]
      · simp [notLoop, hp]
      · intro i hi
        simp [notLoop, hp] at hi
    · obtain ⟨ih1, ih2, ih3, _⟩ := ih
      have hnl : notLoop p (c :: t) = (c :: (notLoop p t).1, (notLoop p t).2) := by
        simp [notLoop, hp]
      refine ⟨?_, ?_, ?_, rfl⟩
      · rw [hnl]
        exact congrArg (c :: ·) ih1
      · rw [hnl]
        exact ih2
      · intro i hi
        rw [hnl] at hi
        cases i with
        | zero => simpa using (Bool.not_eq_true _).mp hp
        | succ j =>
          have hj : j < (notLoop p t).1.length := by
            simpa using Nat.lt_of_succ_lt_succ hi
          simpa using ih3 j hj

/-- Witness for C7: the scan characterization instantiated at
`Complement("STOP")` against `"abcSTOPdef"`. -/
theorem complement_scan_witness :
    "abcSTOPdef".toList =
      (notLoop "STOP".toList "abcSTOPdef".toList).1 ++
        (notLoop "STOP".toList "abcSTOPdef".toList).2 ∧
    ((notLoop "STOP".toList "abcSTOPdef".toList).2 = [] ∨
      "STOP".toList.isPrefixOf (notLoop "STOP".toList "abcSTOPdef".toList).2 =
        true) ∧
    (∀ i, i < (notLoop "STOP".toList "abcSTOPdef".toList).1.length →
      "STOP".toList.isPrefixOf (List.drop i "abcSTOPdef".toList) = false) ∧
    matchNot "abcSTOPdef".toList "STOP".toList [] =
      (if (notLoop "STOP".toList "abcSTOPdef".toList).1.isEmpty then
        POut.noMatch
       else POut.ok (.list [.str [],
         .str (notLoop "STOP".toList "abcSTOPdef".toList).1],
         (notLoop "STOP".toList "abcSTOPdef".toList).2)) :=
  complement_scan_correct.1 "STOP".toList "abcSTOPdef".toList []

/-- C3 (amended): `match_tuple` always wraps the assembled value as
`[name, value]` — with the empty-string label when the Sequence is
anonymous — so for a Sequence of exactly one sub-pattern whose own result
is an empty-labelled pair `["" , x]`, collapsing, unwrapping and
re-wrapping reproduce that pair exactly and the final result equals the
sub-pattern's own result. -/
theorem tuple_singleton_rewrap :
    ∀ (f : Nat) (text : List Char) (p : Pattern) (x : PyVal) (r : List Char),
      doParse f text p = some (POut.ok (.list [.str [], x], r)) →
      doParse (f + 2) text (.tup [p]) =
        some (POut.ok (.list [.str [], x], r)) := by
  intro f text p x r h
  obtain ⟨g, rfl⟩ : ∃ k, f = k + 1 := by
    cases f with
    | zero => exact absurd h (by simp [doParse])
    | succ k => exact ⟨k, rfl⟩
  rw [doParse_succ]
  simp only [getPatternInfo, dispatchStep]
  have hloop : tupleLoop (g + 2) text [p] [] =
      some (.ok ([PyVal.list [.str [], x]], r)) := by
    simp only [tupleLoop]
    rw [doParse_mono (by omega : g + 1 ≤ g + 1) h]
    dsimp only
    simp [truthy, tupleLoop]
  rw [hloop]
  dsimp only
  simp [tupleAssemble, pyIndex, truthy]

/-- Witness for C3: `("a",)` against `"a"` reproduces the literal's own
result `["", "a"]`. -/
theorem tuple_singleton_rewrap_witness :
    doParse 3 "a".toList (.tup [.lit "a".toList]) =
      some (POut.ok (.list [.str [], .str "a".toList], [])) :=
  tuple_singleton_rewrap 1 "a".toList (.lit "a".toList) (.str "a".toList) [] rfl

/-- Counterexample for C3 as stated: for the Sequence of the single
anonymous sub-pattern `Many(("a", "b"))` against `"ab"`, the sub-pattern's
own bare result is the list `["a", "b"]`, but the Sequence wraps it in an
extra empty-label layer `["", ["a", "b"]]`, so the final result is not
identical to the sub-pattern's bare result. -/
theorem tuple_bare_label_counterexample :
    doParse 9 "ab".toList (.tup [.many [.lit "a".toList, .lit "b".toList]]) =
      some (POut.ok (.list [.str [], .list [.str "a".toList, .str "b".toList]],
        [])) ∧
    doParse 9 "ab".toList (.many [.lit "a".toList, .lit "b".toList]) =
      some (POut.ok (.list [.str "a".toList, .str "b".toList], [])) ∧
    PyVal.list [.str [], .list [.str "a".toList, .str "b".toList]] ≠
      PyVal.list [.str "a".toList, .str "b".toList] := by
  refine ⟨rfl, rfl, ?_⟩
  intro h
  injection h with h1
  injection h1 with h2 _
  injection h2 with h3
  cases h3

/-- C4: `match_indented` requires a leading newline and a nonempty run of
spaces on the following line (else `NoPatternFound`); it matches the inner
pattern against the dedented block (one leading newline preserved) and, on
success, returns the inner result together with the remainder
`inner remainder ++ "\n" ++ (unstripped non-block lines joined by "\n")`.
The spec's `"\n  foo\n  bar\nbaz"` round-trip example is included. -/
theorem indented_remainder_correct :
    (∀ (f : Nat) (q : Pattern) (t : List Char) (m : PyVal) (r : List Char),
      (t.takeWhile (fun ch => ch == ' ')).isEmpty = false →
      doParse f ('\n' :: List.intercalate ['\n']
          (collectIndented (t.takeWhile (fun ch => ch == ' ')) (splitNl t)).1) q =
        some (POut.ok (m, r)) →
      doParse (f + 1) ('\n' :: t) (.indented q) =
        some (POut.ok (m, r ++ '\n' :: List.intercalate ['\n']
          (collectIndented (t.takeWhile (fun ch => ch == ' ')) (splitNl t)).2))) ∧
    (∀ (f : Nat) (q : Pattern),
      doParse (f + 1) [] (.indented q) = some POut.noMatch) ∧
    (∀ (f : Nat) (q : Pattern) (c : Char) (t : List Char), c ≠ '\n' →
      doParse (f + 1) (c :: t) (.indented q) = some POut.noMatch) ∧
    (∀ (f : Nat) (q : Pattern) (t : List Char),
      (t.takeWhile (fun ch => ch == ' ')).isEmpty = true →
      doParse (f + 1) ('\n' :: t) (.indented q) = some POut.noMatch) ∧
    doParse 2 "\n  foo\n  bar\nbaz".toList
        (.indented (.lit "\nfoo\nbar".toList)) =
      some (POut.ok (.list [.str [], .str "\nfoo\nbar".toList],
        "\nbaz".toList)) := by
  refine ⟨?_, ?_, ?_, ?_, rfl⟩
  · intro f q t m r hind h
    rw [doParse_succ]
    simp only [getPatternInfo, dispatchStep]
    simp [hind, h]
  · intro f q
    rw [doParse_succ]
    simp only [getPatternInfo, dispatchStep]
  · intro f q c t hc
    rw [doParse_succ]
    simp only [getPatternInfo, dispatchStep]
    simp [hc]
  · intro f q t hind
    rw [doParse_succ]
    simp only [getPatternInfo, dispatchStep]
    simp [hind]

/-- Witness for C4: the dedent example, derived by applying the general
remainder equation at `"\n  foo\n  bar\nbaz"` with the inner literal
`"\nfoo\nbar"`. -/
theorem indented_remainder_witness :
    doParse 2 "\n  foo\n  bar\nbaz".toList
        (.indented (.lit "\nfoo\nbar".toList)) =
      some (POut.ok (.list [.str [], .str "\nfoo\nbar".toList],
        "\nbaz".toList)) := by
  have h := indented_remainder_correct.1 1 (.lit "\nfoo\nbar".toList)
    "  foo\n  bar\nbaz".toList (.list [.str [], .str "\nfoo\nbar".toList]) []
    rfl rfl
  simpa using h

/-- Helper for C5: with the single option `Literal("")`, every pass of the
`match_many` while-loop on a nonempty remainder accepts the empty literal
(a truthy `["", ""]` result), consumes nothing, and loops again, so the
loop exhausts every fuel. -/
theorem manyLoop_empty_lit_none :
    ∀ (f : Nat) (rest : List Char) (acc : List PyVal), rest.isEmpty = false →
      manyLoop f rest [Pattern.lit []] acc = none := by
  intro f
  induction f with
  | zero => intro rest acc _; rfl
  | succ f ih =>
    intro rest acc h
    simp only [manyLoop, h]
    cases f with
    | zero => rfl
    | succ g =>
      cases g with
      | zero => rfl
      | succ k =>
        have hstep : doParse (k + 1) rest (Pattern.lit []) =
            some (POut.ok (.list [.str [], .str []], rest)) := by
          rw [doParse_succ]
          simp only [getPatternInfo, dispatchStep]
          simp [matchText, List.isPrefixOf]
        have hpass : manyPass (k + 2) rest [Pattern.lit []] acc false =
            some (POut.ok (acc ++ [PyVal.str []], rest, true)) := by
          simp only [manyPass]
          rw [hstep]
          dsimp only
          simp [truthy, manyUnwrap, pyIndex, isLambdaStr, manyPass]
        rw [hpass]
        dsimp only
        exact ih rest (acc ++ [PyVal.str []]) h

/-- C5: the engine does not terminate on every pattern: with the RepeatAny
pattern `Many(("",))` — a single empty-Literal option, which succeeds while
consuming no characters — `do_parse` on the text `"a"` exhausts every fuel,
i.e. the Python `match_many` while-loop runs forever. -/
theorem many_empty_literal_diverges :
    ∀ f : Nat, doParse f "a".toList (.many [.lit []]) = none := by
  intro f
  cases f with
  | zero => rfl
  | succ g =>
    rw [doParse_succ]
    simp only [getPatternInfo, dispatchStep]
    rw [manyLoop_empty_lit_none g "a".toList [] rfl]

/-- C1 (amended): `match_many` proceeds in whole passes over the option
list (`manyPass`), not by restarting from the first option after each
acceptance: within a pass every option is tried in order against the
running remainder, every success updates the remainder, and every truthy
success appends its unwrapped result; the scan returns to the first option
only when a pass ends; repetition stops when the remainder is empty or a
pass makes no truthy match, and an overall empty accumulator raises
`NoPatternFound`.  The final conjunct shows the pass behaviour concretely:
`Many(("a", "ab"))` on `"aab"` accepts `"a"` and then `"ab"` inside one
pass, consuming everything. -/
theorem many_scan_semantics :
    (∀ (f : Nat) (text : List Char) (opts : List Pattern),
      doParse (f + 1) text (.many opts) =
        match manyLoop f text opts [] with
        | none => none
        | some POut.noMatch => some POut.noMatch
        | some (POut.error e) => some (POut.error e)
        | some (POut.ok ar) => some (manyFinish ar.1 ar.2 [])) ∧
    (∀ (f : Nat) (rest : List Char) (opts : List Pattern) (acc : List PyVal),
      manyLoop (f + 1) rest opts acc =
        if rest.isEmpty then some (POut.ok (acc, rest))
        else
          match manyPass f rest opts acc false with
          | none => none
          | some POut.noMatch => some POut.noMatch
          | some (POut.error e) => some (POut.error e)
          | some (POut.ok arm) =>
            if arm.2.2 then manyLoop f arm.2.1 opts arm.1
            else some (POut.ok (arm.1, arm.2.1))) ∧
    (∀ (f : Nat) (rest : List Char) (q : Pattern) (qs : List Pattern)
        (acc : List PyVal) (made : Bool),
      manyPass (f + 1) rest (q :: qs) acc made =
        match doParse f rest q with
        | none => none
        | some POut.noMatch => manyPass f rest qs acc made
        | some (POut.error e) => some (POut.error e)
        | some (POut.ok mr) =>
          if truthy mr.1 then
            match manyUnwrap mr.1 with
            | .error e => some (POut.error e)
            | .ok m2 => manyPass f mr.2 qs (acc ++ [m2]) true
          else manyPass f mr.2 qs acc made) ∧
    (∀ (f : Nat) (text : List Char) (opts : List Pattern) (rest2 : List Char),
      manyLoop f text opts [] = some (POut.ok ([], rest2)) →
      doParse (f + 1) text (.many opts) = some POut.noMatch) ∧
    (∀ (f : Nat) (opts : List Pattern),
      doParse (f + 2) [] (.many opts) = some POut.noMatch) ∧
    doParse 9 "aab".toList (.many [.lit "a".toList, .lit "ab".toList]) =
      some (POut.ok (.list [.str "a".toList, .str "ab".toList], [])) := by
  refine ⟨?_, fun f rest opts acc => rfl, fun f rest q qs acc made => rfl,
    ?_, ?_, rfl⟩
  · intro f text opts
    rw [doParse_succ]
    rfl
  · intro f text opts rest2 h
    rw [doParse_succ]
    simp only [getPatternInfo, dispatchStep]
    rw [h]
    rfl
  · intro f opts
    rw [doParse_succ]
    rfl

/-- Counterexample for C1 as stated: on `"aab"` with options
`("a", "ab")`, after the first option accepts `"a"` the scan does not
restart from the first option; the second option `"ab"` is tried next at
the new position and accepted, so the engine returns `["a", "ab"]` with
everything consumed — not the claimed `["a", "a"]` with remainder `"b"`. -/
theorem many_restart_counterexample :
    doParse 9 "aab".toList (.many [.lit "a".toList, .lit "ab".toList]) =
      some (POut.ok (.list [.str "a".toList, .str "ab".toList], [])) ∧
    doParse 9 "aab".toList (.many [.lit "a".toList, .lit "ab".toList]) ≠
      some (POut.ok (.list [.str "a".toList, .str "a".toList],
        "b".toList)) := by
  refine ⟨rfl, fun h => ?_⟩
  rw [show doParse 9 "aab".toList (.many [.lit "a".toList, .lit "ab".toList]) =
    some (POut.ok (.list [.str "a".toList, .str "ab".toList], []))
    from rfl] at h
  simp at h

/-- Witness for C1: a loop run with an empty accumulator (option `"a"`
never matches `"b"`) makes `Many` raise `NoPatternFound`. -/
theorem many_scan_semantics_witness :
    doParse 4 "b".toList (.many [.lit "a".toList]) = some POut.noMatch :=
  many_scan_semantics.2.2.2.1 3 "b".toList [.lit "a".toList] "b".toList rfl

/-- C2 (amended): `match_one_of` tries each option in list order against
the original text and returns the unwrapped result and remainder of the
first option whose match succeeds with a truthy result; an option that
succeeds with a falsy (Empty) result — such as a `Skip` — is passed over,
and `NoPatternFound` is raised when no option yields a truthy result.  The
spec's ordered-choice example (`[Literal("a"), Literal("ab")]` on `"ab"`
consumes only `"a"`) is the final conjunct. -/
theorem oneof_first_truthy_semantics :
    (∀ (f : Nat) (text : List Char) (ps : List Pattern),
      doParse (f + 1) text (.oneOf ps) = oneOfLoop f text ps) ∧
    (∀ (f : Nat) (text : List Char),
      oneOfLoop (f + 1) text [] = some POut.noMatch) ∧
    (∀ (f : Nat) (text : List Char) (q : Pattern) (qs : List Pattern),
      oneOfLoop (f + 1) text (q :: qs) =
        match doParse f text q with
        | none => none
        | some POut.noMatch => oneOfLoop f text qs
        | some (POut.error e) => some (POut.error e)
        | some (POut.ok mr) =>
          if truthy mr.1 then
            match oneOfUnwrap mr.1 with
            | .error e => some (POut.error e)
            | .ok m2 => some (POut.ok (m2, mr.2))
          else oneOfLoop f text qs) ∧
    (∀ (f : Nat) (text : List Char) (q : Pattern) (qs : List Pattern)
        (m : PyVal) (r : List Char),
      doParse f text q = some (POut.ok (m, r)) → truthy m = false →
      oneOfLoop (f + 1) text (q :: qs) = oneOfLoop f text qs) ∧
    doParse 3 "ab".toList (.oneOf [.lit "a".toList, .lit "ab".toList]) =
      some (POut.ok (.list [.str [], .str "a".toList], "b".toList)) := by
  refine ⟨?_, fun f text => rfl, fun f text q qs => rfl, ?_, rfl⟩
  · intro f text ps
    rw [doParse_succ]
    rfl
  · intro f text q qs m r h ht
    simp only [oneOfLoop]
    rw [h]
    dsimp only
    rw [ht]
    rfl

/-- Witness for C2: a succeeding `Ignore` option (falsy Empty result) is
passed over and the scan moves to the rest of the options. -/
theorem oneof_first_truthy_witness :
    oneOfLoop 3 "ab".toList [.ignore (.lit "a".toList)] =
      oneOfLoop 2 "ab".toList [] :=
  oneof_first_truthy_semantics.2.2.2.1 2 "ab".toList (.ignore (.lit "a".toList))
    [] (.list []) "b".toList rfl rfl

/-- Counterexample for C2 as stated: `OneOf((Ignore("a"),))` against
`"ab"` raises `NoPatternFound` even though its single option succeeds with
the Empty result `[]` and remainder `"b"` — an option succeeding with an
Empty result is not returned. -/
theorem oneof_empty_result_counterexample :
    doParse 9 "ab".toList (.oneOf [.ignore (.lit "a".toList)]) =
      some POut.noMatch ∧
    doParse 9 "ab".toList (.ignore (.lit "a".toList)) =
      some (POut.ok (.list [], "b".toList)) :=
  ⟨rfl, rfl⟩

/-- Structural invariant of every value the engine produces: no list
reachable inside the value is a singleton.  (Singleton accumulators are
collapsed to their element by `match_tuple` and `match_many` before being
returned, so `result[1]` is always available next to a falsy or
`"<lambda>"` first element.) -/
inductive DeepGood : PyVal → Prop where
  | str (s : List Char) : DeepGood (.str s)
  | list (l : List PyVal) (hl : l.length ≠ 1) (h : ∀ x ∈ l, DeepGood x) :
      DeepGood (.list l)

/-- A `[name, value]` pair is `DeepGood` when its value is. -/
theorem deepGood_pair (n : List Char) (v : PyVal) (hv : DeepGood v) :
    DeepGood (.list [.str n, v]) := by
  refine DeepGood.list _ (by simp) ?_
  intro x hx
  simp only [List.mem_cons, List.not_mem_nil, or_false] at hx
  rcases hx with rfl | rfl
  · exact DeepGood.str n
  · exact hv

/-- Elements of a `DeepGood` list are `DeepGood`. -/
theorem deepGood_elem {l : List PyVal} {x : PyVal} (h : DeepGood (.list l))
    (hx : x ∈ l) : DeepGood x := by
  cases h with
  | list _ _ helem => exact helem x hx

/-- Indexing into a `DeepGood` value yields a `DeepGood` value. -/
theorem pyIndex_good {m v : PyVal} {i : Nat} (hm : DeepGood m)
    (h : pyIndex m i = some v) : DeepGood v := by
  rcases m with s | l
  · simp only [pyIndex] at h
    rcases hs : s.get? i with _ | c <;> rw [hs] at h
    · exact Option.noConfusion h
    · simp only [Option.map_some'] at h
      cases Option.some_inj.mp h
      exact DeepGood.str _
  · simp only [pyIndex] at h
    exact deepGood_elem hm (List.get?_mem h)

/-- The `match_many` unwrap step maps a `DeepGood` value to a `DeepGood`
value whenever it does not raise. -/
theorem manyUnwrap_ok_good {m m2 : PyVal} (hm : DeepGood m)
    (h : manyUnwrap m = .ok m2) : DeepGood m2 := by
  unfold manyUnwrap at h
  rcases h0 : pyIndex m 0 with _ | v0 <;> rw [h0] at h
  · exact Except.noConfusion h
  · dsimp only at h
    by_cases hb : (!truthy v0 || isLambdaStr v0) = true
    · rw [if_pos hb] at h
      rcases h1 : pyIndex m 1 with _ | v1 <;> rw [h1] at h
      · exact Except.noConfusion h
      · injection h with h2
        subst h2
        exact pyIndex_good hm h1
    · rw [if_neg hb] at h
      injection h with h2
      subst h2
      exact hm

/-- The `match_one_of` unwrap step maps a `DeepGood` value to a `DeepGood`
value whenever it does not raise. -/
theorem oneOfUnwrap_ok_good {m m2 : PyVal} (hm : DeepGood m)
    (h : oneOfUnwrap m = .ok m2) : DeepGood m2 := by
  unfold oneOfUnwrap at h
  by_cases ht : (!truthy m) = true
  · rw [if_pos ht] at h
    rcases h1 : pyIndex m 1 with _ | v1 <;> rw [h1] at h
    · exact Except.noConfusion h
    · injection h with h2
      subst h2
      exact pyIndex_good hm h1
  · rw [if_neg ht] at h
    rcases h0 : pyIndex m 0 with _ | v0 <;> rw [h0] at h
    · exact Except.noConfusion h
    · dsimp only at h
      by_cases hb : isLambdaStr v0 = true
      · rw [if_pos hb] at h
        rcases h1 : pyIndex m 1 with _ | v1 <;> rw [h1] at h
        · exact Except.noConfusion h
        · injection h with h2
          subst h2
          exact pyIndex_good hm h1
      · rw [if_neg hb] at h
        injection h with h2
        subst h2
        exact hm

/-- When every accumulated sub-result is truthy and `DeepGood`, the tuple
assembly cannot raise `IndexError` in a way that matters here: whenever it
returns a value, that value is `DeepGood`. -/
theorem tupleAssemble_ok_good {acc : List PyVal} {name : List Char} {v : PyVal}
    (hacc : ∀ x ∈ acc, truthy x = true ∧ DeepGood x)
    (h : tupleAssemble acc name = .ok v) : DeepGood v := by
  simp only [tupleAssemble] at h
  rcases acc with _ | ⟨a, rest⟩
  · simp [pyIndex] at h
  · rcases rest with _ | ⟨b, rest2⟩
    · obtain ⟨hta, hga⟩ := hacc a (by simp)
      dsimp only at h
      rcases h0 : pyIndex a 0 with _ | v0 <;> rw [h0] at h
      · exact Except.noConfusion h
      · dsimp only at h
        by_cases hb : (!truthy v0) = true
        · rw [if_pos hb] at h
          rcases h1 : pyIndex a 1 with _ | v1 <;> rw [h1] at h
          · exact Except.noConfusion h
          · injection h with h2
            subst h2
            exact deepGood_pair _ _ (pyIndex_good hga h1)
        · rw [if_neg hb] at h
          injection h with h2
          subst h2
          exact deepGood_pair _ _ hga
    · obtain ⟨hta, hga⟩ := hacc a (by simp)
      dsimp only at h
      rw [show pyIndex (PyVal.list (a :: b :: rest2)) 0 = some a from rfl] at h
      dsimp only at h
      rw [if_neg (by simp [hta])] at h
      injection h with h2
      subst h2
      refine deepGood_pair _ _ (DeepGood.list _ (by simp) ?_)
      intro x hx
      exact (hacc x hx).2

/-- When every accumulated repetition result is `DeepGood`, the `Many`
assembly produces a `DeepGood` value whenever it succeeds. -/
theorem manyFinish_ok_good {acc : List PyVal} {rest name : List Char}
    {mr : PyVal × List Char} (hacc : ∀ x ∈ acc, DeepGood x)
    (h : manyFinish acc rest name = .ok mr) : DeepGood mr.1 := by
  simp only [manyFinish] at h
  rcases acc with _ | ⟨a, rest2⟩
  · simp at h
  · rw [if_neg (by simp)] at h
    rcases rest2 with _ | ⟨b, rest3⟩
    · dsimp only at h
      by_cases hn : name.isEmpty = true
      · rw [if_pos hn] at h
        injection h with h2
        subst h2
        exact hacc a (by simp)
      · rw [if_neg hn] at h
        injection h with h2
        subst h2
        exact deepGood_pair _ _ (hacc a (by simp))
    · dsimp only at h
      have hlg : DeepGood (PyVal.list (a :: b :: rest3)) :=
        DeepGood.list _ (by simp) hacc
      by_cases hn : name.isEmpty = true
      · rw [if_pos hn] at h
        injection h with h2
        subst h2
        exact hlg
      · rw [if_neg hn] at h
        injection h with h2
        subst h2
        exact deepGood_pair _ _ hlg

/-- The result of `match_text` is always a `[name, text]` pair. -/
theorem matchText_ok_good {text s name : List Char} {mr : PyVal × List Char}
    (h : matchText text s name = .ok mr) : DeepGood mr.1 := by
  simp only [matchText] at h
  by_cases hp : s.isPrefixOf text = true
  · rw [if_pos hp] at h
    injection h with h2
    subst h2
    exact deepGood_pair _ _ (DeepGood.str _)
  · rw [if_neg hp] at h
    exact POut.noConfusion h

/-- The result of `match_some` is always a `[name, run]` pair. -/
theorem matchSome_ok_good {text p name : List Char} {mr : PyVal × List Char}
    (h : matchSome text p name = .ok mr) : DeepGood mr.1 := by
  simp only [matchSome] at h
  by_cases he : (someLoop p text).1.isEmpty = true
  · rw [if_pos he] at h
    exact POut.noConfusion h
  · rw [if_neg he] at h
    injection h with h2
    subst h2
    exact deepGood_pair _ _ (DeepGood.str _)

/-- The result of `match_words` is always a `[name, run]` pair. -/
theorem matchWords_ok_good {text ls name : List Char} {mr : PyVal × List Char}
    (h : matchWords text ls name = .ok mr) : DeepGood mr.1 := by
  simp only [matchWords] at h
  by_cases he : (wordsLoop ls text).1.isEmpty = true
  · rw [if_pos he] at h
    exact POut.noConfusion h
  · rw [if_neg he] at h
    injection h with h2
    subst h2
    exact deepGood_pair _ _ (DeepGood.str _)

/-- The result of `match_not` is always a `[name, run]` pair. -/
theorem matchNot_ok_good {text p name : List Char} {mr : PyVal × List Char}
    (h : matchNot text p name = .ok mr) : DeepGood mr.1 := by
  simp only [matchNot] at h
  by_cases he : (notLoop p text).1.isEmpty = true
  · rw [if_pos he] at h
    exact POut.noConfusion h
  · rw [if_neg he] at h
    injection h with h2
    subst h2
    exact deepGood_pair _ _ (DeepGood.str _)

/-- Every value the engine returns satisfies the `DeepGood` invariant, and
the tuple loop only accumulates truthy `DeepGood` values. -/
theorem deepGoodAll : ∀ f : Nat,
    (∀ text pat mr, doParse f text pat = some (POut.ok mr) → DeepGood mr.1) ∧
    (∀ rest ps acc ar, (∀ x ∈ acc, truthy x = true ∧ DeepGood x) →
      tupleLoop f rest ps acc = some (POut.ok ar) →
      ∀ x ∈ ar.1, truthy x = true ∧ DeepGood x) ∧
    (∀ text ps mr, oneOfLoop f text ps = some (POut.ok mr) → DeepGood mr.1) ∧
    (∀ rest ps acc made arm, (∀ x ∈ acc, DeepGood x) →
      manyPass f rest ps acc made = some (POut.ok arm) →
      ∀ x ∈ arm.1, DeepGood x) ∧
    (∀ rest opts acc ar, (∀ x ∈ acc, DeepGood x) →
      manyLoop f rest opts acc = some (POut.ok ar) → ∀ x ∈ ar.1, DeepGood x) := by
  intro f
  induction f with
  | zero =>
    refine ⟨fun t p mr h => ?_, fun r ps a ar _ h => ?_, fun t ps mr h => ?_,
        fun r ps a m arm _ h => ?_, fun r o a ar _ h => ?_⟩ <;>
      simp [doParse, tupleLoop, oneOfLoop, manyPass, manyLoop] at h
  | succ f ih =>
    obtain ⟨ih1, ih2, ih3, ih4, ih5⟩ := ih
    refine ⟨?_, ?_, ?_, ?_, ?_⟩
    · -- doParse
      intro text pat mr h
      rw [doParse_succ] at h
      rcases hp : (getPatternInfo pat).1 with s | ps | s | ls | q | ps | ps | s | q | q | ⟨n, q⟩ <;>
        rw [hp] at h <;> simp only [dispatchStep] at h
      · -- lit
        injection h with h2
        exact matchText_ok_good h2
      · -- tup
        rcases hq : tupleLoop f text ps [] with _ | mr' <;> rw [hq] at h
        · exact Option.noConfusion h
        · rcases mr' with ar | _ | e <;> dsimp only at h
          · rcases ha : tupleAssemble ar.1 (getPatternInfo pat).2 with e | v <;>
              rw [ha] at h
            · injection h with h2
              exact POut.noConfusion h2
            · injection h with h2
              injection h2 with h3
              subst h3
              have helem := ih2 text ps [] ar (by simp) hq
              exact tupleAssemble_ok_good helem ha
          · injection h with h2
            exact POut.noConfusion h2
          · injection h with h2
            exact POut.noConfusion h2
      · -- someC
        injection h with h2
        exact matchSome_ok_good h2
      · -- words
        injection h with h2
        exact matchWords_ok_good h2
      · -- ignore
        rcases hq : doParse f text q with _ | mr' <;> rw [hq] at h
        · exact Option.noConfusion h
        · rcases mr' with mr' | _ | e <;> dsimp only at h <;> injection h with h2
          · injection h2 with h3
            subst h3
            exact DeepGood.list [] (by simp) (by simp)
          · exact POut.noConfusion h2
          · exact POut.noConfusion h2
      · -- oneOf
        exact ih3 text ps mr h
      · -- many
        rcases hq : manyLoop f text ps [] with _ | mr' <;> rw [hq] at h
        · exact Option.noConfusion h
        · rcases mr' with ar | _ | e <;> dsimp only at h <;> injection h with h2
          · exact manyFinish_ok_good (ih5 text ps [] ar (by simp) hq) h2
          · exact POut.noConfusion h2
          · exact POut.noConfusion h2
      · -- notP
        injection h with h2
        exact matchNot_ok_good h2
      · -- optional
        rcases hq : doParse f text q with _ | mr' <;> rw [hq] at h
        · exact Option.noConfusion h
        · rcases mr' with mr' | _ | e <;> dsimp only at h <;> injection h with h2
          · injection h2 with h3
            subst h3
            exact ih1 text q mr' hq
          · injection h2 with h3
            subst h3
            exact DeepGood.list [] (by simp) (by simp)
          · exact POut.noConfusion h2
      · -- indented
        rcases text with _ | ⟨c, t⟩
        · dsimp only at h
          injection h with h2
          exact POut.noConfusion h2
        · dsimp only at h
          by_cases hc : c = '\n'
          · rw [if_pos hc] at h
            by_cases hi : (t.takeWhile (fun ch => ch == ' ')).isEmpty = true
            · rw [if_pos hi] at h
              injection h with h2
              exact POut.noConfusion h2
            · rw [if_neg hi] at h
              rcases hq : doParse f ('\n' :: List.intercalate ['\n']
                  (collectIndented (t.takeWhile (fun ch => ch == ' '))
                    (splitNl t)).1) q with _ | mr' <;> rw [hq] at h
              · exact Option.noConfusion h
              · rcases mr' with mr' | _ | e <;> dsimp only at h <;>
                  injection h with h2
                · injection h2 with h3
                  have hgood := ih1 _ q mr' hq
                  have h4 : mr.1 = mr'.1 := by
                    rw [← h3]
                  rw [h4]
                  exact hgood
                · exact POut.noConfusion h2
                · exact POut.noConfusion h2
          · rw [if_neg hc] at h
            injection h with h2
            exact POut.noConfusion h2
      · -- rule
        injection h with h2
        exact POut.noConfusion h2
    · -- tupleLoop
      intro rest ps acc ar hacc h
      rcases ps with _ | ⟨q, qs⟩
      · simp only [tupleLoop] at h
        injection h with h2
        injection h2 with h3
        subst h3
        exact hacc
      · simp only [tupleLoop] at h
        rcases hq : doParse f rest q with _ | mr' <;> rw [hq] at h
        · exact Option.noConfusion h
        · rcases mr' with mr' | _ | e <;> dsimp only at h
          · by_cases ht : truthy mr'.1 = true
            · rw [if_pos ht] at h
              refine ih2 mr'.2 qs (acc ++ [mr'.1]) ar ?_ h
              intro x hx
              rcases List.mem_append.mp hx with hx | hx
              · exact hacc x hx
              · have hx2 : x = mr'.1 := by simpa using hx
                subst hx2
                exact ⟨ht, ih1 rest q mr' hq⟩
            · rw [if_neg ht] at h
              exact ih2 mr'.2 qs acc ar hacc h
          · injection h with h2
            exact POut.noConfusion h2
          · injection h with h2
            exact POut.noConfusion h2
    · -- oneOfLoop
      intro text ps mr h
      rcases ps with _ | ⟨q, qs⟩
      · simp only [oneOfLoop] at h
        injection h with h2
        exact POut.noConfusion h2
      · simp only [oneOfLoop] at h
        rcases hq : doParse f text q with _ | mr' <;> rw [hq] at h
        · exact Option.noConfusion h
        · rcases mr' with mr' | _ | e <;> dsimp only at h
          · by_cases ht : truthy mr'.1 = true
            · rw [if_pos ht] at h
              rcases hu : oneOfUnwrap mr'.1 with e | m2 <;> rw [hu] at h <;>
                injection h with h2
              · exact POut.noConfusion h2
              · injection h2 with h3
                subst h3
                exact oneOfUnwrap_ok_good (ih1 text q mr' hq) hu
            · rw [if_neg ht] at h
              exact ih3 text qs mr h
          · exact ih3 text qs mr h
          · injection h with h2
            exact POut.noConfusion h2
    · -- manyPass
      intro rest ps acc made arm hacc h
      rcases ps with _ | ⟨q, qs⟩
      · simp only [manyPass] at h
        injection h with h2
        injection h2 with h3
        subst h3
        exact hacc
      · simp only [manyPass] at h
        rcases hq : doParse f rest q with _ | mr' <;> rw [hq] at h
        · exact Option.noConfusion h
        · rcases mr' with mr' | _ | e <;> dsimp only at h
          · by_cases ht : truthy mr'.1 = true
            · rw [if_pos ht] at h
              rcases hu : manyUnwrap mr'.1 with e | m2 <;> rw [hu] at h
              · injection h with h2
                exact POut.noConfusion h2
              · refine ih4 mr'.2 qs (acc ++ [m2]) true arm ?_ h
                intro x hx
                rcases List.mem_append.mp hx with hx | hx
                · exact hacc x hx
                · have hx2 : x = m2 := by simpa using hx
                  subst hx2
                  exact manyUnwrap_ok_good (ih1 rest q mr' hq) hu
            · rw [if_neg ht] at h
              exact ih4 mr'.2 qs acc made arm hacc h
          · exact ih4 rest qs acc made arm hacc h
          · injection h with h2
            exact POut.noConfusion h2
    · -- manyLoop
      intro rest opts acc ar hacc h
      simp only [manyLoop] at h
      by_cases hr : rest.isEmpty = true
      · rw [if_pos hr] at h
        injection h with h2
        injection h2 with h3
        subst h3
        exact hacc
      · rw [if_neg hr] at h
        rcases hq : manyPass f rest opts acc false with _ | mr' <;> rw [hq] at h
        · exact Option.noConfusion h
        · rcases mr' with arm | _ | e <;> dsimp only at h
          · have harm := ih4 rest opts acc false arm hacc hq
            by_cases hm : arm.2.2 = true
            · rw [if_pos hm] at h
              exact ih5 arm.2.1 opts arm.1 ar harm h
            · rw [if_neg hm] at h
              injection h with h2
              injection h2 with h3
              subst h3
              exact harm
          · injection h with h2
            exact POut.noConfusion h2
          · injection h with h2
            exact POut.noConfusion h2

/-- With a nonempty accumulator of truthy `DeepGood` values, the tuple
assembly indexings `result[0]` and `result[1]` are in bounds and a value is
returned. -/
theorem tupleAssemble_ok_exists (acc : List PyVal) (name : List Char)
    (hne : acc ≠ []) (hacc : ∀ x ∈ acc, truthy x = true ∧ DeepGood x) :
    ∃ v, tupleAssemble acc name = .ok v := by
  simp only [tupleAssemble]
  rcases acc with _ | ⟨a, rest⟩
  · exact absurd rfl hne
  · rcases rest with _ | ⟨b, rest2⟩
    · obtain ⟨hta, hga⟩ := hacc a (by simp)
      dsimp only
      rcases a with s | l
      · rcases s with _ | ⟨c, s'⟩
        · simp [truthy] at hta
        · rw [show pyIndex (PyVal.str (c :: s')) 0 = some (PyVal.str [c]) from rfl]
          dsimp only
          rw [if_neg (by simp [truthy])]
          exact ⟨_, rfl⟩
      · rcases l with _ | ⟨x, l'⟩
        · simp [truthy] at hta
        · rcases l' with _ | ⟨y, l''⟩
          · cases hga with
            | list _ hl _ => simp at hl
          · rw [show pyIndex (PyVal.list (x :: y :: l'')) 0 = some x from rfl]
            dsimp only
            by_cases hx : (!truthy x) = true
            · rw [if_pos hx]
              rw [show pyIndex (PyVal.list (x :: y :: l'')) 1 = some y from rfl]
              exact ⟨_, rfl⟩
            · rw [if_neg hx]
              exact ⟨_, rfl⟩
    · obtain ⟨hta, _⟩ := hacc a (by simp)
      dsimp only
      rw [show pyIndex (PyVal.list (a :: b :: rest2)) 0 = some a from rfl]
      dsimp only
      rw [if_neg (by simp [hta])]
      exact ⟨_, rfl⟩

/-- C9 (amended): when the tuple loop completes with at least one truthy
accumulated sub-result, `match_tuple`'s result assembly is safe — the
`result[0]` and `result[1]` accesses are in bounds — and a `(Result,
remainder)` pair is returned; but when no sub-pattern contributes a truthy
result (an empty Sequence, or one whose sub-patterns all produce Empty),
the assembly raises `IndexError`, which is neither `NoPatternFound` nor
`UnknownMatcherType`. -/
theorem tuple_assembly_safe :
    (∀ (f : Nat) (text : List Char) (ps : List Pattern) (acc : List PyVal)
        (rest : List Char),
      tupleLoop f text ps [] = some (POut.ok (acc, rest)) → acc ≠ [] →
      ∃ v, doParse (f + 1) text (.tup ps) = some (POut.ok (v, rest))) ∧
    (∀ (f : Nat) (text : List Char) (ps : List Pattern) (rest : List Char),
      tupleLoop f text ps [] = some (POut.ok ([], rest)) →
      doParse (f + 1) text (.tup ps) = some (POut.error .indexError)) := by
  constructor
  · intro f text ps acc rest h hne
    have hacc : ∀ x ∈ acc, truthy x = true ∧ DeepGood x := by
      have h2 := (deepGoodAll f).2.1 text ps [] (acc, rest) (by simp) h
      exact h2
    obtain ⟨v, hv⟩ := tupleAssemble_ok_exists acc [] hne hacc
    refine ⟨v, ?_⟩
    rw [doParse_succ]
    simp only [getPatternInfo, dispatchStep]
    rw [h]
    dsimp only
    rw [hv]
  · intro f text ps rest h
    rw [doParse_succ]
    simp only [getPatternInfo, dispatchStep]
    rw [h]
    dsimp only
    rw [show tupleAssemble [] [] = Except.error .indexError from rfl]

/-- Witness for C9: the loop for `("a",)` on `"a"` accumulates one truthy
result, so the assembly returns a pair with the loop's remainder. -/
theorem tuple_assembly_safe_witness :
    ∃ v, doParse 3 "a".toList (.tup [.lit "a".toList]) =
      some (POut.ok (v, [])) :=
  tuple_assembly_safe.1 2 "a".toList [.lit "a".toList]
    [.list [.str [], .str "a".toList]] [] rfl (by simp)

/-- Counterexample for C9 as stated: the empty Sequence `()` and the
all-Skip Sequence `(Ignore("a"),)` make `match_tuple` raise `IndexError`
at `result[0]` — not a returned pair, not `NoPatternFound`, not
`UnknownMatcherType`. -/
theorem tuple_empty_index_error :
    doParse 2 "x".toList (.tup []) = some (POut.error .indexError) ∧
    doParse 9 "ab".toList (.tup [.ignore (.lit "a".toList)]) =
      some (POut.error .indexError) :=
  ⟨rfl, rfl⟩
